import Mathlib

/-!
# Verification of the crop rope core

Shallow embedding of the three source files of the repository
(`src/rope/metrics.rs`, `src/rope/rope.rs`, `src/tree/tree.rs`) together
with models of the parts of the repository that those files use but whose
sources are not available (the gap-buffer slice operations of
`gap_buffer.rs` / `gap_slice.rs` and the node operations of `node.rs`);
those models follow the specification's words and are marked
`Modelled from the spec:` in their doc comments.

Text chunks and their slices are embedded as lists of bytes (`List Nat`);
machine integers (`usize`) are embedded as `Nat` (no arithmetic in the
sources can overflow a 64-bit machine word on the inputs the code admits,
and `usize` subtraction is embedded as truncated `Nat` subtraction, which
agrees with the source wherever the source does not panic).  Recursive
procedures whose Rust counterparts recurse on reference-counted nodes are
embedded with an explicit fuel argument bounding the recursion depth;
callers pass a structural size of the node, which always suffices, and fuel
exhaustion is mapped (like the `unreachable!()` arms of the source) to
`Option.none`.
-/

/-! ## ChunkSummary (`gap_buffer.rs`, modelled; shape fixed by `metrics.rs`) -/

/-- The summary of a text chunk: `{ bytes, line_breaks }` (spec §3). -/
structure ChunkSummary where
  bytes : Nat
  line_breaks : Nat
deriving DecidableEq, Repr

/-- `ChunkSummary::empty()`. -/
def ChunkSummary.empty : ChunkSummary := ⟨0, 0⟩

/-- Modelled from the spec: componentwise addition of summaries
(`gap_buffer.rs` is not under `src/`; spec §3 requires the summary algebra
to be componentwise addition of `bytes` and `line_breaks`). -/
def csAdd (a b : ChunkSummary) : ChunkSummary :=
  ⟨a.bytes + b.bytes, a.line_breaks + b.line_breaks⟩

/-- Modelled from the spec: componentwise subtraction of summaries, defined
whenever the right operand was previously added into the left (spec §3). -/
def csSub (a b : ChunkSummary) : ChunkSummary :=
  ⟨a.bytes - b.bytes, a.line_breaks - b.line_breaks⟩

/-! ## Gap-buffer slices, modelled as byte lists (`gap_slice.rs` missing) -/

/-- Number of line-feed bytes in a chunk. -/
def nlCount (s : List Nat) : Nat := s.count 10

/-- Modelled from the spec: `summarize()` scans and returns
`{ bytes, line_breaks }` (spec §4.1); `gap_slice.rs` is not under `src/`. -/
def chunkSummarize (s : List Nat) : ChunkSummary := ⟨s.length, nlCount s⟩

/-- Modelled from the spec: `split_at_byte(i)` produces two slices covering
bytes `[0, i)` and `[i, len)` (spec §4.1). -/
def splitAtByte (i : Nat) (s : List Nat) : List Nat × List Nat :=
  (s.take i, s.drop i)

/-- The byte position just after the `k`-th line feed of `s` (the length of
`s` when `s` holds fewer than `k` line feeds). -/
def posAfterLB : Nat → List Nat → Nat
  | 0, _ => 0
  | _ + 1, [] => 0
  | k + 1, b :: rest =>
      (if b = 10 then posAfterLB k rest else posAfterLB (k + 1) rest) + 1

/-- Modelled from the spec: `split_at_line(k)` produces two slices such
that the left contains exactly `k` line breaks and includes the terminating
line feed of the `k`-th line; when `k` equals the total line-break count of
a slice that ends in a line feed, the split sits at `len` (spec §4.1,
§4.6); `gap_slice.rs` is not under `src/`. -/
def splitAtLine (k : Nat) (s : List Nat) : List Nat × List Nat :=
  (s.take (posAfterLB k s), s.drop (posAfterLB k s))

/-- Modelled from the spec: `has_trailing_newline()` — the last byte is
`0x0A` (spec §4.1). -/
def hasTrailingNewline (s : List Nat) : Bool := s.getLast? == some 10

/-- Modelled from the spec: `truncate_trailing_line_break()` removes the
final line feed, returning the removed byte count (spec §4.1; this model
handles the `\n` terminator the spec requires at minimum). -/
def truncateTrailingLB (s : List Nat) : List Nat × Nat :=
  if hasTrailingNewline s then (s.dropLast, 1) else (s, 0)

/-- Whether byte offset `i` of `s` is a UTF-8 char boundary (offset `len`
or a byte that is not a UTF-8 continuation byte). -/
def isCharBoundary (s : List Nat) (i : Nat) : Bool :=
  match s.get? i with
  | none => true
  | some b => b < 128 || 192 ≤ b

/-! ## `ByteMetric` (`src/rope/metrics.rs` lines 81–115) -/

namespace ByteMetric

/-- `ByteMetric::split` (`metrics.rs` 81–115): at `byte_offset == len` the
chunk is returned unchanged with an empty right partner; otherwise the
shorter side is summarized and the other summary obtained by subtraction
from the total. -/
def split (chunk : List Nat) (byte_offset : Nat) (summary : ChunkSummary) :
    List Nat × ChunkSummary × List Nat × ChunkSummary :=
  if byte_offset = chunk.length then
    (chunk, summary, [], ChunkSummary.empty)
  else
    let lr := splitAtByte byte_offset chunk
    if byte_offset < chunk.length / 2 then
      let left_summary := chunkSummarize lr.1
      (lr.1, left_summary, lr.2, csSub summary left_summary)
    else
      let right_summary := chunkSummarize lr.2
      (lr.1, csSub summary right_summary, lr.2, right_summary)

end ByteMetric

/-! ## `RawLineMetric` (`src/rope/metrics.rs` lines 169–263) -/

namespace RawLineMetric

/-- `RawLineMetric::split` (`metrics.rs` 169–190): split the chunk at a
line offset; the left summary is `{bytes: left.len(), line_breaks: k}` and
the right summary is obtained by subtraction. -/
def split (chunk : List Nat) (line_offset : Nat) (summary : ChunkSummary) :
    List Nat × ChunkSummary × List Nat × ChunkSummary :=
  let lr := splitAtLine line_offset chunk
  let left_summary : ChunkSummary := ⟨lr.1.length, line_offset⟩
  (lr.1, left_summary, lr.2, csSub summary left_summary)

/-- `RawLineMetric::first_unit` (`metrics.rs` 192–212): split at line
offset 1; the advance equals the first unit's summary. -/
def first_unit (chunk : List Nat) (summary : ChunkSummary) :
    List Nat × ChunkSummary × ChunkSummary × List Nat × ChunkSummary :=
  let s := split chunk 1 summary
  (s.1, s.2.1, s.2.1, s.2.2.1, s.2.2.2)

/-- `RawLineMetric::last_unit` (`metrics.rs` 217–244), returning
`(rest, rest_summary, last, last_summary, advance)`. -/
def last_unit (slice : List Nat) (summary : ChunkSummary) :
    List Nat × ChunkSummary × List Nat × ChunkSummary × ChunkSummary :=
  let rl :=
    if hasTrailingNewline slice then
      let p := splitAtLine (summary.line_breaks - 1) slice
      (p.1, p.2, (⟨p.2.length, 1⟩ : ChunkSummary))
    else
      let p := splitAtLine summary.line_breaks slice
      (p.1, p.2, (⟨p.2.length, 0⟩ : ChunkSummary))
  let rest_summary := csSub summary rl.2.2
  (rl.1, rest_summary, rl.2.1, rl.2.2, rl.2.2)

end RawLineMetric

/-! ## `LineMetric` (`src/rope/metrics.rs` lines 300–384) -/

namespace LineMetric

/-- `LineMetric::first_unit` (`metrics.rs` 317–341): take the raw first
unit, then strip its trailing line feed, decrementing `bytes` by the
removed count and zeroing `line_breaks`; the advance stays raw. -/
def first_unit (chunk : List Nat) (summary : ChunkSummary) :
    List Nat × ChunkSummary × ChunkSummary × List Nat × ChunkSummary :=
  let r := RawLineMetric.first_unit chunk summary
  let t := truncateTrailingLB r.1
  (t.1, ⟨r.2.1.bytes - t.2, 0⟩, r.2.2.1, r.2.2.2.1, r.2.2.2.2)

/-- `LineMetric::last_unit` (`metrics.rs` 347–372): if the raw last unit
has no line break, return it untouched; otherwise strip the trailing line
feed from the unit while keeping the raw advance. -/
def last_unit (chunk : List Nat) (summary : ChunkSummary) :
    List Nat × ChunkSummary × List Nat × ChunkSummary × ChunkSummary :=
  let r := RawLineMetric.last_unit chunk summary
  if r.2.2.2.1.line_breaks = 0 then
    (r.1, r.2.1, r.2.2.1, r.2.2.2.1, r.2.2.2.1)
  else
    let t := truncateTrailingLB r.2.2.1
    (r.1, r.2.1, t.1, ⟨r.2.2.2.1.bytes - t.2, 0⟩, r.2.2.2.2)

end LineMetric

/-! ## The generic metric-summarized B-tree (`src/tree/tree.rs`)

The tree is generic over a leaf type `L` with summary type `S`.  The leaf
capability bundle (spec §3, §9) is passed explicitly as a `LeafOps`
structure; the base metric is embedded as a `Nat`-valued projection of
summaries. -/

/-- The capability bundle of a `Leaf` type (spec §3): summarization, the
summary monoid, the base-metric projection, the minimum-fill test, the
default value and `balance_slices`.  Leaf slices are embedded as leaf
values themselves (`to_owned` is the identity). -/
structure LeafOps (L S : Type) where
  summarize : L → S
  sadd : S → S → S
  szero : S
  baseOf : S → Nat
  isBigEnough : L → Bool
  defaultLeaf : L
  balanceSlices : L → S → L → S → L × Option L

variable {L S : Type}

/-- A tree node: the tagged union `Inode | Lnode` with its cached summary
(spec §3; the `Node` shape is fixed by the matches in `tree.rs`). -/
inductive Node (L S : Type) where
  | internal (summary : S) (children : List (Node L S))
  | leaf (value : L) (summary : S)

/-- The cached summary of a node. -/
def Node.summary : Node L S → S
  | .internal s _ => s
  | .leaf _ s => s

/-- Modelled from the spec: `Inode::from_children` / `Inode::empty` plus
`push` — an inode caches the fold of its children's summaries
(`node.rs` is not under `src/`; spec §3 invariant 2, §4.3). -/
def mkInternal (ops : LeafOps L S) (cs : List (Node L S)) : Node L S :=
  .internal ((cs.map Node.summary).foldl ops.sadd ops.szero) cs

/-- `Lnode::from(value)`: a leaf node with a recomputed summary. -/
def leafNode (ops : LeafOps L S) (v : L) : Node L S :=
  .leaf v (ops.summarize v)

/-- Modelled from the spec: the default tree is a single leaf holding
`L::default()` (spec §4.4 step 1, §7; `Tree`/`Node` `Default` impls are
not under `src/`). -/
def defaultTree (ops : LeafOps L S) : Node L S :=
  leafNode ops ops.defaultLeaf

/-- `node.base_measure()`: the base-metric measure of the node's summary. -/
def baseMeasure (ops : LeafOps L S) (n : Node L S) : Nat :=
  ops.baseOf n.summary

/-- The number of children of a node (0 for a leaf). -/
def Node.childCount : Node L S → Nat
  | .internal _ cs => cs.length
  | .leaf _ _ => 0

/-- Whether the node is a leaf. -/
def Node.isLeaf : Node L S → Bool
  | .internal _ _ => false
  | .leaf _ _ => true

mutual

/-- The leaf values of a node, in order. -/
def Node.leavesList : Node L S → List L
  | .leaf v _ => [v]
  | .internal _ cs => leavesListOf cs

/-- The leaf values of a list of nodes, in order. -/
def leavesListOf : List (Node L S) → List L
  | [] => []
  | c :: cs => c.leavesList ++ leavesListOf cs

end

mutual

/-- A structural size of a node, used as recursion fuel (it dominates the
depth of the node). -/
def Node.treeSize : Node L S → Nat
  | .leaf _ _ => 1
  | .internal _ cs => treeSizeOf cs + 1

/-- The summed structural size of a list of nodes. -/
def treeSizeOf : List (Node L S) → Nat
  | [] => 0
  | c :: cs => c.treeSize + treeSizeOf cs

end

/-- `node.leaf_count()`: the number of leaves under the node. -/
def Node.leafCount (n : Node L S) : Nat := n.leavesList.length

/-- Modelled from the spec: `⌈FANOUT/2⌉`, the minimum number of children
of a non-root inode (spec §3 invariant 1, §4.3). -/
def minChildren (fan : Nat) : Nat := (fan + 1) / 2

/-- Modelled from the spec: `Node::is_valid` — a leaf is valid when
`is_big_enough`, an inode when it `has_enough_children` (`node.rs` is not
under `src/`; spec §4.3, §8). -/
def Node.isValid (ops : LeafOps L S) (fan : Nat) : Node L S → Bool
  | .leaf v _ => ops.isBigEnough v
  | .internal _ cs => minChildren fan ≤ cs.length

/-- `Tree::pull_up_root` (`tree.rs` 254–272): continuously replace the
root with its only child while the root is an internal node with a single
child. -/
def pullUpRoot : Node L S → Node L S
  | .internal _ [c] => pullUpRoot c
  | n => n

/-- Consecutive runs of `n` elements (the last run may be shorter),
mirroring `iter.by_ref().take(FANOUT)` in `Tree::from_leaves`
(`tree.rs` 160–166).  The `n = 0` guard is degenerate; the source only
instantiates `FANOUT ≥ 2`. -/
def chunksOfAux {α : Type} (n : Nat) : Nat → List α → List (List α)
  | _, [] => []
  | 0, l => [l]
  | fuel + 1, a :: as =>
      (a :: as).take n :: chunksOfAux n fuel ((a :: as).drop n)

/-- Consecutive runs of `n` elements of `l` (defined via `chunksOfAux`
with fuel `l.length`, which suffices for every `n ≥ 1`; the source only
instantiates `FANOUT ≥ 2`). -/
def chunksOf {α : Type} (n : Nat) (l : List α) : List (List α) :=
  chunksOfAux n l.length l

/-- One grouping pass of `Tree::from_leaves` (`tree.rs` 154–169): group
the current level into consecutive runs of size `FANOUT` and build an
inode from each run. -/
def groupingPass (ops : LeafOps L S) (fan : Nat) (nodes : List (Node L S)) :
    List (Node L S) :=
  (chunksOf fan nodes).map (mkInternal ops)

/-- The `while nodes.len() > FANOUT` loop of `Tree::from_leaves`
(`tree.rs` 154–169), with fuel bounding the number of passes; a fuel of
`nodes.length` always suffices for `FANOUT ≥ 2`. -/
def buildLevels (ops : LeafOps L S) (fan : Nat) :
    Nat → List (Node L S) → List (Node L S)
  | 0, nodes => nodes
  | fuel + 1, nodes =>
      if nodes.length > fan then
        buildLevels ops fan fuel (groupingPass ops fan nodes)
      else nodes

/-- Modelled from the spec: `balance_first_child_with_second` — if the
first child is under-filled, redistribute or merge it with the second
child (`node.rs` is not under `src/`; spec §4.3, §4.1 for the leaf case).
Acts on a children list. -/
def balanceFirstWithSecond (ops : LeafOps L S) (fan : Nat) :
    List (Node L S) → List (Node L S)
  | c1 :: c2 :: rest =>
    if Node.isValid ops fan c1 then c1 :: c2 :: rest
    else
      match c1, c2 with
      | .internal _ cs1, .internal _ cs2 =>
        if cs1.length + cs2.length ≤ fan then
          mkInternal ops (cs1 ++ cs2) :: rest
        else
          let need := minChildren fan - cs1.length
          mkInternal ops (cs1 ++ cs2.take need) ::
            mkInternal ops (cs2.drop need) :: rest
      | .leaf v1 s1, .leaf v2 s2 =>
        match ops.balanceSlices v1 s1 v2 s2 with
        | (first, none) => leafNode ops first :: rest
        | (first, some second) =>
            leafNode ops first :: leafNode ops second :: rest
      | a, b => a :: b :: rest
  | cs => cs

/-- Modelled from the spec: `balance_last_child_with_penultimate` — the
symmetric repair of an under-filled last child (`node.rs` is not under
`src/`; spec §4.3). -/
def balanceLastWithPenultimate (ops : LeafOps L S) (fan : Nat)
    (cs : List (Node L S)) : List (Node L S) :=
  match cs.reverse with
  | c1 :: c2 :: rest =>
    if Node.isValid ops fan c1 then cs
    else
      match c2, c1 with
      | .internal _ cs2, .internal _ cs1 =>
        if cs2.length + cs1.length ≤ fan then
          (mkInternal ops (cs2 ++ cs1) :: rest).reverse
        else
          let keep := cs2.length - (minChildren fan - cs1.length)
          (mkInternal ops (cs2.drop keep ++ cs1) ::
            mkInternal ops (cs2.take keep) :: rest).reverse
      | .leaf v2 s2, .leaf v1 s1 =>
        match ops.balanceSlices v2 s2 v1 s1 with
        | (first, none) => (leafNode ops first :: rest).reverse
        | (first, some second) =>
            (leafNode ops second :: leafNode ops first :: rest).reverse
      | _, _ => cs
  | _ => cs

/-- Modelled from the spec: `balance_left_side` walks down the leftmost
spine, applying the pairwise balance at each level (`node.rs` is not
under `src/`; spec §4.3).  Fuel bounds the depth. -/
def balanceLeftSide (ops : LeafOps L S) (fan : Nat) :
    Nat → Node L S → Node L S
  | 0, n => n
  | fuel + 1, .internal _ (c :: rest) =>
      mkInternal ops (balanceFirstWithSecond ops fan
        (balanceLeftSide ops fan fuel c :: rest))
  | _ + 1, n => n

/-- Modelled from the spec: `balance_right_side` walks down the rightmost
spine, applying the pairwise balance at each level (`node.rs` is not
under `src/`; spec §4.3).  Fuel bounds the depth. -/
def balanceRightSide (ops : LeafOps L S) (fan : Nat) :
    Nat → Node L S → Node L S
  | 0, n => n
  | fuel + 1, .internal s cs =>
      (match cs.getLast? with
      | none => .internal s cs
      | some c =>
          mkInternal ops (balanceLastWithPenultimate ops fan
            (cs.dropLast ++ [balanceRightSide ops fan fuel c])))
  | _ + 1, n => n

/-- `Tree::from_leaves` (`tree.rs` 125–180): an empty iterator yields the
default tree; a single leaf becomes the root; otherwise the leaves are
grouped level by level, wrapped in a root inode, repaired on the right
side and the root pulled up. -/
def fromLeaves (ops : LeafOps L S) (fan : Nat) (leaves : List L) :
    Node L S :=
  match leaves with
  | [] => defaultTree ops
  | [l] => leafNode ops l
  | ls =>
    let nodes := ls.map (leafNode ops)
    let nodes := buildLevels ops fan nodes.length nodes
    let root := mkInternal ops nodes
    let root := balanceRightSide ops fan root.treeSize root
    pullUpRoot root

/-! ## TreeSlice and its materialization (`tree.rs` 30–71 and 280–565) -/

/-- Modelled from the spec: the `TreeSlice` record
`{ root, offset, first_slice+summary, last_slice+summary, leaf_count,
base_measure, summary }` (spec §3; `tree_slice.rs` is not under `src/`,
the field accesses are those of `tree.rs`). -/
structure TreeSlice (L S : Type) where
  root : Node L S
  offset : S
  first_slice : L
  first_summary : S
  last_slice : L
  last_summary : S
  leaf_count : Nat
  base_measure : Nat
  summary : S

/-- The child-scanning loop of `cut_first_rec` (`tree.rs` 455–488): find
the child straddling `take_from`, cut it via `rec`, push it followed by
the remaining children, then repair an invalid first child against the
second and adjust the invalid-node count. -/
def cutFirstLoop (ops : LeafOps L S) (fan : Nat)
    (rec : Node L S → Nat → Nat → Option (Node L S × Nat)) :
    List (Node L S) → Nat → Nat → Nat → Option (Node L S × Nat)
  | [], _, _, _ => none
  | c :: rest, offset, take_from, inv =>
    let this := baseMeasure ops c
    if offset + this > take_from then
      match rec c (take_from - offset) inv with
      | none => none
      | some fi =>
        let first_is_valid := Node.isValid ops fan fi.1
        let children := fi.1 :: rest
        let bi :=
          if !first_is_valid && children.length > 1 then
            (balanceFirstWithSecond ops fan children, fi.2 - 1)
          else (children, fi.2)
        let inv2 := if minChildren fan ≤ bi.1.length then bi.2 else bi.2 + 1
        some (mkInternal ops bi.1, inv2)
    else cutFirstLoop ops fan rec rest (offset + this) take_from inv

/-- `cut_first_rec` (`tree.rs` 439–503): rebuild the subtree with
everything before `take_from` removed, installing the borrowed first
slice as the deepest new leaf; on a too-small leaf the invalid-node
counter is incremented.  Fuel bounds the recursion depth; `sizeOf node`
always suffices. -/
def cutFirstRec (ops : LeafOps L S) (fan : Nat) :
    Nat → Node L S → Nat → L → S → Nat → Option (Node L S × Nat)
  | 0, _, _, _, _, _ => none
  | fuel + 1, node, take_from, start_slice, start_summary, inv =>
    match node with
    | .leaf _ _ =>
        some (Node.leaf start_slice start_summary,
          if ops.isBigEnough start_slice then inv else inv + 1)
    | .internal _ children =>
        cutFirstLoop ops fan
          (fun c t i => cutFirstRec ops fan fuel c t start_slice
            start_summary i)
          children 0 take_from inv

/-- The child-scanning loop of `cut_last_rec` (`tree.rs` 519–551): push
whole children until the child straddling `take_up_to`, cut it via `rec`,
then repair an invalid last child against the penultimate and adjust the
invalid-node count. -/
def cutLastLoop (ops : LeafOps L S) (fan : Nat)
    (rec : Node L S → Nat → Nat → Option (Node L S × Nat)) :
    List (Node L S) → Nat → List (Node L S) → Nat → Nat →
      Option (Node L S × Nat)
  | [], _, _, _, _ => none
  | c :: rest, offset, acc, take_up_to, inv =>
    let this := baseMeasure ops c
    if offset + this ≥ take_up_to then
      match rec c (take_up_to - offset) inv with
      | none => none
      | some la =>
        let last_is_valid := Node.isValid ops fan la.1
        let children := acc ++ [la.1]
        let bi :=
          if !last_is_valid && children.length > 1 then
            (balanceLastWithPenultimate ops fan children, la.2 - 1)
          else (children, la.2)
        let inv2 := if minChildren fan ≤ bi.1.length then bi.2 else bi.2 + 1
        some (mkInternal ops bi.1, inv2)
    else cutLastLoop ops fan rec rest (offset + this) (acc ++ [c])
      take_up_to inv

/-- `cut_last_rec` (`tree.rs` 505–564): rebuild the subtree with
everything after `take_up_to` removed, installing the borrowed last slice
as the deepest new leaf.  On a too-small leaf the source ASSIGNS
`*invalid_nodes = 1` (`tree.rs` 558). -/
def cutLastRec (ops : LeafOps L S) (fan : Nat) :
    Nat → Node L S → Nat → L → S → Nat → Option (Node L S × Nat)
  | 0, _, _, _, _, _ => none
  | fuel + 1, node, take_up_to, end_slice, end_summary, inv =>
    match node with
    | .leaf _ _ =>
        some (Node.leaf end_slice end_summary,
          if ops.isBigEnough end_slice then inv else 1)
    | .internal _ children =>
        cutLastLoop ops fan
          (fun c t i => cutLastRec ops fan fuel c t end_slice end_summary i)
          children 0 [] take_up_to inv

/-- The variant of `cut_last_rec` with the leaf arm replaced by the
increment `*invalid_nodes += 1` used by `cut_first_rec` (the replacement
claim C3 is about). -/
def cutLastRecInc (ops : LeafOps L S) (fan : Nat) :
    Nat → Node L S → Nat → L → S → Nat → Option (Node L S × Nat)
  | 0, _, _, _, _, _ => none
  | fuel + 1, node, take_up_to, end_slice, end_summary, inv =>
    match node with
    | .leaf _ _ =>
        some (Node.leaf end_slice end_summary,
          if ops.isBigEnough end_slice then inv else inv + 1)
    | .internal _ children =>
        cutLastLoop ops fan
          (fun c t i =>
            cutLastRecInc ops fan fuel c t end_slice end_summary i)
          children 0 [] take_up_to inv

/-- The first loop of `cut_tree_slice` (`tree.rs` 384–407): skip children
before the slice start; at the straddling child either share it whole
(when the start is 0) or cut its prefix.  Returns the pushed children,
the updated offset, the invalid-first count and the remaining children. -/
def cutPhase1 (ops : LeafOps L S) (fan : Nat) (start : Nat)
    (first_slice : L) (first_summary : S) :
    List (Node L S) → Nat →
      Option (List (Node L S) × Nat × Nat × List (Node L S))
  | [], offset => some ([], offset, 0, [])
  | c :: rest, offset =>
    let this := baseMeasure ops c
    if offset + this > start then
      if start = 0 then some ([c], offset + this, 0, rest)
      else
        match cutFirstRec ops fan (Node.treeSize c) c (start - offset) first_slice
            first_summary 0 with
        | none => none
        | some fi => some ([fi.1], offset + this, fi.2, rest)
    else cutPhase1 ops fan start first_slice first_summary rest
      (offset + this)

/-- The second loop of `cut_tree_slice` (`tree.rs` 409–434): push whole
children until the child straddling the slice end; share it whole when
the end coincides with the root's base measure, else cut its suffix.
Returns the final children list and the invalid-last count. -/
def cutPhase2 (ops : LeafOps L S) (fan : Nat) (endPos rootBase : Nat)
    (last_slice : L) (last_summary : S) :
    List (Node L S) → Nat → List (Node L S) →
      Option (List (Node L S) × Nat)
  | [], _, acc => some (acc, 0)
  | c :: rest, offset, acc =>
    let this := baseMeasure ops c
    if offset + this ≥ endPos then
      if endPos = rootBase then some (acc ++ [c], 0)
      else
        match cutLastRec ops fan (Node.treeSize c) c (endPos - offset) last_slice
            last_summary 0 with
        | none => none
        | some la => some (acc ++ [la.1], la.2)
    else cutPhase2 ops fan endPos rootBase last_slice last_summary rest
      (offset + this) (acc ++ [c])

/-- `cutPhase2` with `cutLastRecInc` in place of `cutLastRec`. -/
def cutPhase2Inc (ops : LeafOps L S) (fan : Nat) (endPos rootBase : Nat)
    (last_slice : L) (last_summary : S) :
    List (Node L S) → Nat → List (Node L S) →
      Option (List (Node L S) × Nat)
  | [], _, acc => some (acc, 0)
  | c :: rest, offset, acc =>
    let this := baseMeasure ops c
    if offset + this ≥ endPos then
      if endPos = rootBase then some (acc ++ [c], 0)
      else
        match cutLastRecInc ops fan (Node.treeSize c) c (endPos - offset)
            last_slice last_summary 0 with
        | none => none
        | some la => some (acc ++ [la.1], la.2)
    else cutPhase2Inc ops fan endPos rootBase last_slice last_summary rest
      (offset + this) (acc ++ [c])

/-- `cut_tree_slice` (`tree.rs` 363–437): walk the slice root's children
and return the new root's children together with the per-side
invalid-node counts.  A leaf root is the `as_internal_unchecked`
undefined-behavior path, embedded as `none`. -/
def cutTreeSlice (ops : LeafOps L S) (fan : Nat)
    (slice : TreeSlice L S) : Option (List (Node L S) × Nat × Nat) :=
  match slice.root with
  | .leaf _ _ => none
  | .internal _ children =>
    let start := ops.baseOf slice.offset
    match cutPhase1 ops fan start slice.first_slice slice.first_summary
        children 0 with
    | none => none
    | some q1 =>
      match cutPhase2 ops fan (start + slice.base_measure)
          (baseMeasure ops slice.root) slice.last_slice slice.last_summary
          q1.2.2.2 q1.2.1 q1.1 with
      | none => none
      | some q2 => some (q2.1, q1.2.2.1, q2.2)

/-- `cutTreeSlice` with the incrementing `cut_last_rec` variant. -/
def cutTreeSliceInc (ops : LeafOps L S) (fan : Nat)
    (slice : TreeSlice L S) : Option (List (Node L S) × Nat × Nat) :=
  match slice.root with
  | .leaf _ _ => none
  | .internal _ children =>
    let start := ops.baseOf slice.offset
    match cutPhase1 ops fan start slice.first_slice slice.first_summary
        children 0 with
    | none => none
    | some q1 =>
      match cutPhase2Inc ops fan (start + slice.base_measure)
          (baseMeasure ops slice.root) slice.last_slice slice.last_summary
          q1.2.2.2 q1.2.1 q1.1 with
      | none => none
      | some q2 => some (q2.1, q1.2.2.1, q2.2)

/-- `from_treeslice::into_tree_root` (`tree.rs` 289–338): wrap the cut
result in a root, repair the left and right spines when their invalid
counts are positive, pulling up the root after each repair. -/
def intoTreeRoot (ops : LeafOps L S) (fan : Nat)
    (slice : TreeSlice L S) : Option (Node L S) :=
  match cutTreeSlice ops fan slice with
  | none => none
  | some r =>
    let root := mkInternal ops r.1
    let root :=
      if r.2.1 > 0 then
        pullUpRoot (balanceLeftSide ops fan root.treeSize root)
      else root
    let root :=
      if r.2.2 > 0 then
        pullUpRoot (balanceRightSide ops fan root.treeSize root)
      else root
    some root

/-- `intoTreeRoot` with the incrementing `cut_last_rec` variant. -/
def intoTreeRootInc (ops : LeafOps L S) (fan : Nat)
    (slice : TreeSlice L S) : Option (Node L S) :=
  match cutTreeSliceInc ops fan slice with
  | none => none
  | some r =>
    let root := mkInternal ops r.1
    let root :=
      if r.2.1 > 0 then
        pullUpRoot (balanceLeftSide ops fan root.treeSize root)
      else root
    let root :=
      if r.2.2 > 0 then
        pullUpRoot (balanceRightSide ops fan root.treeSize root)
      else root
    some root

/-- `impl From<TreeSlice> for Tree` (`tree.rs` 30–71): share the root
when the slice spans the whole of it; build a single leaf from one
fragment; balance two fragments; otherwise cut. -/
def treeFromSlice (ops : LeafOps L S) (fan : Nat)
    (slice : TreeSlice L S) : Option (Node L S) :=
  if slice.base_measure = baseMeasure ops slice.root then
    some slice.root
  else if slice.leaf_count = 1 then
    some (Node.leaf slice.first_slice slice.summary)
  else if slice.leaf_count = 2 then
    match ops.balanceSlices slice.first_slice slice.first_summary
        slice.last_slice slice.last_summary with
    | (first, none) => some (leafNode ops first)
    | (first, some second) =>
        some (mkInternal ops [leafNode ops first, leafNode ops second])
  else intoTreeRoot ops fan slice

/-- `treeFromSlice` with the incrementing `cut_last_rec` variant. -/
def treeFromSliceInc (ops : LeafOps L S) (fan : Nat)
    (slice : TreeSlice L S) : Option (Node L S) :=
  if slice.base_measure = baseMeasure ops slice.root then
    some slice.root
  else if slice.leaf_count = 1 then
    some (Node.leaf slice.first_slice slice.summary)
  else if slice.leaf_count = 2 then
    match ops.balanceSlices slice.first_slice slice.first_summary
        slice.last_slice slice.last_summary with
    | (first, none) => some (leafNode ops first)
    | (first, some second) =>
        some (mkInternal ops [leafNode ops first, leafNode ops second])
  else intoTreeRootInc ops fan slice

/-- Every internal node of the tree has at least one child (the baseline
well-formedness every tree of the library satisfies; spec §3
invariant 1). -/
inductive NoEmptyInodes : Node L S → Prop
  | leaf (v : L) (s : S) : NoEmptyInodes (.leaf v s)
  | internal (s : S) (cs : List (Node L S)) : cs ≠ [] →
      (∀ c ∈ cs, NoEmptyInodes c) → NoEmptyInodes (.internal s cs)

/-- Every cached summary in the tree is accurate: leaves carry their
value's summarization and inodes the fold of their children's summaries
(spec §3 invariant 2). -/
inductive WfSummary (ops : LeafOps L S) : Node L S → Prop
  | leaf (v : L) : WfSummary ops (.leaf v (ops.summarize v))
  | internal (cs : List (Node L S)) :
      (∀ c ∈ cs, WfSummary ops c) →
      WfSummary ops
        (.internal ((cs.map Node.summary).foldl ops.sadd ops.szero) cs)

/-! ## The `Rope` facade (`src/rope/rope.rs`) -/

/-- `ROPE_FANOUT` outside tests (`rope.rs` 10–11). -/
def ropeFanout : Nat := 8

/-- The `LeafOps` instance of text chunks; `max` is `MAX_BYTES`.
The fill rule and `balance_slices` are modelled from the spec
(`gap_buffer.rs` is not under `src/`; spec §4.1: min-fill is
`MAX_BYTES / 2`; `balance_slices` concatenates when the pieces fit in one
leaf and otherwise redistributes so both sides satisfy min-fill). -/
def chunkOps (max : Nat) : LeafOps (List Nat) ChunkSummary where
  summarize := chunkSummarize
  sadd := csAdd
  szero := ChunkSummary.empty
  baseOf := fun s => s.bytes
  isBigEnough := fun c => max / 2 ≤ c.length
  defaultLeaf := []
  balanceSlices := fun a _ b _ =>
    if a.length + b.length ≤ max then (a ++ b, none)
    else
      ((a ++ b).take ((a.length + b.length + 1) / 2),
        some ((a ++ b).drop ((a.length + b.length + 1) / 2)))

/-- The `Rope` struct (`rope.rs` 17–21): a tree of text chunks plus the
`last_byte_is_newline` bit. -/
structure Rope where
  root : Node (List Nat) ChunkSummary
  last_byte_is_newline : Bool

/-- `Rope::new()` (`rope.rs` 140–143): the default rope. -/
def Rope.new (max : Nat) : Rope :=
  ⟨defaultTree (chunkOps max), false⟩

/-- Modelled from the spec: the chunker `TextChunkIter` splits the input
into pieces of at most `MAX_BYTES` bytes whose concatenation is the input
(spec §6; `TextChunkIter` is not under `src/`). -/
def textChunks (max : Nat) (s : List Nat) : List (List Nat) :=
  chunksOf max s

/-- `impl From<&str> for Rope` (`rope.rs` 170–187). -/
def ropeFromStr (max : Nat) (s : List Nat) : Rope :=
  if s.isEmpty then Rope.new max
  else
    { root := fromLeaves (chunkOps max) ropeFanout (textChunks max s),
      last_byte_is_newline := s.getLast? == some 10 }

/-- `impl From<String> for Rope` (`rope.rs` 189–204): the no-allocation
single-chunk shortcut when the string fits in one chunk, else delegate to
the `&str` conversion. -/
def ropeFromString (max : Nat) (s : List Nat) : Rope :=
  if s.length ≤ max then
    { root := fromLeaves (chunkOps max) ropeFanout [s],
      last_byte_is_newline := (s.getLast?.map (fun b => b == 10)).getD false }
  else ropeFromStr max s

/-- `impl From<RopeSlice> for Rope` (`rope.rs` 300–308): materialize the
tree slice and leave `last_byte_is_newline` as `false` (the source's
`// TODO`). -/
def ropeFromSlice (max : Nat) (slice : TreeSlice (List Nat) ChunkSummary) :
    Option Rope :=
  (treeFromSlice (chunkOps max) ropeFanout slice).map
    (fun root => ⟨root, false⟩)

/-- `Rope::byte_len` (`rope.rs` 43–46). -/
def Rope.byte_len (r : Rope) : Nat := r.root.summary.bytes

/-- `Rope::line_len` (`rope.rs` 117–121):
`line_breaks + 1 - (last_byte_is_newline as usize)`. -/
def Rope.line_len (r : Rope) : Nat :=
  r.root.summary.line_breaks + 1 -
    (if r.last_byte_is_newline then 1 else 0)

/-- The byte content of a rope: its leaves concatenated. -/
def ropeBytes (r : Rope) : List Nat := r.root.leavesList.flatten

/-- The final byte of a rope, if any. -/
def ropeLastByte (r : Rope) : Option Nat := (ropeBytes r).getLast?

/-! ## Concrete instances used by witnesses and counterexamples -/

/-- A whole-tree slice of the rope `"a\n"` (single leaf, accurate
summaries): its base measure equals its root's base measure. -/
def c2slice : TreeSlice (List Nat) ChunkSummary where
  root := Node.leaf [97, 10] ⟨2, 1⟩
  offset := ⟨0, 0⟩
  first_slice := [97, 10]
  first_summary := ⟨2, 1⟩
  last_slice := [97, 10]
  last_summary := ⟨2, 1⟩
  leaf_count := 1
  base_measure := 2
  summary := ⟨2, 1⟩

/-- A whole-tree slice of a two-leaf tree over `"ab" ++ "cd"`. -/
def c4slice : TreeSlice (List Nat) ChunkSummary where
  root := Node.internal ⟨4, 0⟩
    [Node.leaf [97, 98] ⟨2, 0⟩, Node.leaf [99, 100] ⟨2, 0⟩]
  offset := ⟨0, 0⟩
  first_slice := [97, 98]
  first_summary := ⟨2, 0⟩
  last_slice := [99, 100]
  last_summary := ⟨2, 0⟩
  leaf_count := 2
  base_measure := 4
  summary := ⟨4, 0⟩

/-- A chain of two single-child inodes over the leaf `"ab"`, with
accurate cached summaries. -/
def c8tree : Node (List Nat) ChunkSummary :=
  Node.internal ⟨2, 0⟩ [Node.internal ⟨2, 0⟩ [Node.leaf [97, 98] ⟨2, 0⟩]]

/-! ## Lemmas about byte lists, line-feed counts and line splits -/

theorem nlCount_take_add_drop (n : Nat) (s : List Nat) :
    nlCount (s.take n) + nlCount (s.drop n) = nlCount s := by
  rw [nlCount, nlCount, nlCount, ← List.count_append, List.take_append_drop]

theorem nlCount_take_le (n : Nat) (s : List Nat) :
    nlCount (s.take n) ≤ nlCount s :=
  (List.take_sublist n s).count_le 10

theorem nlCount_drop_le (n : Nat) (s : List Nat) :
    nlCount (s.drop n) ≤ nlCount s := by
  have := nlCount_take_add_drop n s
  omega

theorem getLast?_ne_nil {s : List Nat} {a : Nat} (h : s.getLast? = some a) :
    s ≠ [] := by
  intro he
  subst he
  simp at h

theorem getLast?_drop_of_ne_nil (n : Nat) (s : List Nat)
    (h : s.drop n ≠ []) : (s.drop n).getLast? = s.getLast? := by
  induction s generalizing n with
  | nil => simp at h
  | cons b t ih =>
    cases n with
    | zero => rfl
    | succ n =>
      simp only [List.drop_succ_cons] at h ⊢
      have ht : t ≠ [] := by
        intro he
        subst he
        simp at h
      rw [ih n h]
      cases t with
      | nil => exact absurd rfl ht
      | cons c u => rw [List.getLast?_cons_cons]

theorem dropLast_append_of_getLast? {s : List Nat} {a : Nat}
    (h : s.getLast? = some a) : s.dropLast ++ [a] = s := by
  induction s with
  | nil => simp at h
  | cons b t ih =>
    cases t with
    | nil =>
      simp only [List.getLast?_singleton, Option.some.injEq] at h
      subst h
      rfl
    | cons c u =>
      rw [List.getLast?_cons_cons] at h
      have := ih h
      simp only [List.dropLast_cons₂, List.cons_append, this]

theorem trailing_newline_nlCount_pos {s : List Nat}
    (h : hasTrailingNewline s = true) : 1 ≤ nlCount s := by
  rw [hasTrailingNewline, beq_iff_eq] at h
  have hm : (10 : Nat) ∈ s := by
    have hne := getLast?_ne_nil h
    have := List.getLast?_eq_getLast s hne
    rw [this, Option.some.injEq] at h
    rw [← h]
    exact List.getLast_mem hne
  exact List.count_pos_iff.mpr hm

theorem trailing_newline_getLast? {s : List Nat}
    (h : hasTrailingNewline s = true) : s.getLast? = some 10 := by
  rwa [hasTrailingNewline, beq_iff_eq] at h

theorem posAfterLB_le_length (k : Nat) (s : List Nat) :
    posAfterLB k s ≤ s.length := by
  induction s generalizing k with
  | nil => cases k <;> simp [posAfterLB]
  | cons b t ih =>
    cases k with
    | zero => simp [posAfterLB]
    | succ k =>
      simp only [posAfterLB, List.length_cons]
      split
      · have := ih k
        omega
      · have := ih (k + 1)
        omega

theorem nlCount_cons_nl (t : List Nat) : nlCount (10 :: t) = nlCount t + 1 := by
  simp [nlCount]

theorem nlCount_cons_other {b : Nat} (t : List Nat) (hb : ¬b = 10) :
    nlCount (b :: t) = nlCount t := by
  simp [nlCount, List.count_cons, hb]

theorem nlCount_take_posAfterLB (k : Nat) (s : List Nat)
    (h : k ≤ nlCount s) : nlCount (s.take (posAfterLB k s)) = k := by
  induction s generalizing k with
  | nil => cases k <;> simp_all [posAfterLB, nlCount]
  | cons b t ih =>
    cases k with
    | zero => simp [posAfterLB, nlCount]
    | succ k =>
      simp only [posAfterLB]
      split
      · next hb =>
        subst hb
        rw [List.take_succ_cons]
        have hc := nlCount_cons_nl t
        have h' : k ≤ nlCount t := by omega
        rw [nlCount_cons_nl, ih k h']
      · next hb =>
        rw [List.take_succ_cons]
        have hc := nlCount_cons_other t hb
        have h' : k + 1 ≤ nlCount t := by omega
        rw [nlCount_cons_other _ hb, ih (k + 1) h']

theorem getLast?_take_posAfterLB (k : Nat) (s : List Nat)
    (h1 : 1 ≤ k) (h : k ≤ nlCount s) :
    (s.take (posAfterLB k s)).getLast? = some 10 := by
  induction s generalizing k with
  | nil =>
    simp only [nlCount, List.count_nil] at h
    omega
  | cons b t ih =>
    cases k with
    | zero => omega
    | succ k =>
      simp only [posAfterLB]
      split
      · next hb =>
        subst hb
        rw [List.take_succ_cons]
        cases k with
        | zero => simp [posAfterLB]
        | succ k =>
          have hc0 := nlCount_cons_nl t
          have h' : k + 1 ≤ nlCount t := by omega
          have hg := ih (k + 1) (by omega) h'
          have hne := getLast?_ne_nil hg
          cases hc : t.take (posAfterLB (k + 1) t) with
          | nil => exact absurd hc hne
          | cons c u =>
            rw [hc] at hg
            rw [List.getLast?_cons_cons]
            exact hg
      · next hb =>
        rw [List.take_succ_cons]
        have hc0 := nlCount_cons_other t hb
        have h' : k + 1 ≤ nlCount t := by omega
        have hg := ih (k + 1) (by omega) h'
        have hne := getLast?_ne_nil hg
        cases hc : t.take (posAfterLB (k + 1) t) with
        | nil => exact absurd hc hne
        | cons c u =>
          rw [hc] at hg
          rw [List.getLast?_cons_cons]
          exact hg

theorem splitAtLine_take_len (k : Nat) (s : List Nat) :
    (s.take (posAfterLB k s)).length = posAfterLB k s := by
  rw [List.length_take]
  have := posAfterLB_le_length k s
  omega

/-- In a chunk with a trailing line feed, splitting at line offset
`line_breaks - 1` leaves exactly the final, newline-terminated line on the
right. -/
theorem trailing_drop_facts (s : List Nat) (hT : hasTrailingNewline s = true) :
    nlCount (s.take (posAfterLB (nlCount s - 1) s)) = nlCount s - 1 ∧
    nlCount (s.drop (posAfterLB (nlCount s - 1) s)) = 1 ∧
    (s.drop (posAfterLB (nlCount s - 1) s)).getLast? = some 10 := by
  have h1 : 1 ≤ nlCount s := trailing_newline_nlCount_pos hT
  have htake : nlCount (s.take (posAfterLB (nlCount s - 1) s)) = nlCount s - 1 :=
    nlCount_take_posAfterLB _ s (by omega)
  have hadd := nlCount_take_add_drop (posAfterLB (nlCount s - 1) s) s
  have hdrop : nlCount (s.drop (posAfterLB (nlCount s - 1) s)) = 1 := by omega
  refine ⟨htake, hdrop, ?_⟩
  have hne : s.drop (posAfterLB (nlCount s - 1) s) ≠ [] := by
    intro he
    rw [he] at hdrop
    simp [nlCount] at hdrop
  rw [getLast?_drop_of_ne_nil _ _ hne]
  exact trailing_newline_getLast? hT

/-- Splitting at line offset `line_breaks` leaves the unterminated trailing
fragment (no line feeds) on the right. -/
theorem final_drop_facts (s : List Nat) :
    nlCount (s.take (posAfterLB (nlCount s) s)) = nlCount s ∧
    nlCount (s.drop (posAfterLB (nlCount s) s)) = 0 := by
  have htake : nlCount (s.take (posAfterLB (nlCount s) s)) = nlCount s :=
    nlCount_take_posAfterLB _ s le_rfl
  have hadd := nlCount_take_add_drop (posAfterLB (nlCount s) s) s
  exact ⟨htake, by omega⟩

/-! ## Claim theorems for the metric layer -/

/-- **C1.** For every chunk with `summary == chunk.summarize()` and every
byte offset `i` on a char boundary with `i <= chunk.len()`,
`ByteMetric::split(chunk, ByteMetric(i), &summary)` returns a left slice
covering bytes `[0, i)`, a right slice covering `[i, len)`, a left summary
measuring `ByteMetric(i)`, and summaries that add back to the total — in
particular at `i == len` the left is the whole chunk and the right is
empty — regardless of which branch of the shorter-side
summarize-then-subtract optimization is taken. -/
theorem ByteMetric_split_correct (chunk : List Nat) (i : Nat)
    (summary : ChunkSummary) (hs : summary = chunkSummarize chunk)
    (hb : isCharBoundary chunk i = true) (hi : i ≤ chunk.length) :
    (ByteMetric.split chunk i summary).1 = chunk.take i ∧
    (ByteMetric.split chunk i summary).2.2.1 = chunk.drop i ∧
    (ByteMetric.split chunk i summary).2.1.bytes = i ∧
    csAdd (ByteMetric.split chunk i summary).2.1
        (ByteMetric.split chunk i summary).2.2.2 = summary := by
  subst hs
  by_cases he : i = chunk.length
  · subst he
    simp [ByteMetric.split, List.take_length, List.drop_length, csAdd,
      ChunkSummary.empty, chunkSummarize]
  · have hlt : i < chunk.length := lt_of_le_of_ne hi he
    have htl : (chunk.take i).length = i := by
      rw [List.length_take]
      omega
    have hdl : (chunk.drop i).length = chunk.length - i :=
      List.length_drop i chunk
    have hcnt := nlCount_take_add_drop i chunk
    by_cases hhalf : i < chunk.length / 2
    · constructor
      · simp [ByteMetric.split, if_neg he, splitAtByte, if_pos hhalf]
      constructor
      · simp [ByteMetric.split, if_neg he, splitAtByte, if_pos hhalf]
      constructor
      · simp only [ByteMetric.split, if_neg he, splitAtByte, if_pos hhalf,
          chunkSummarize]
        omega
      · simp only [ByteMetric.split, if_neg he, splitAtByte, if_pos hhalf,
          csAdd, csSub, chunkSummarize, ChunkSummary.mk.injEq]
        have h1 := nlCount_take_le i chunk
        constructor <;> omega
    · have h1 := nlCount_drop_le i chunk
      constructor
      · simp [ByteMetric.split, if_neg he, splitAtByte, if_neg hhalf]
      constructor
      · simp [ByteMetric.split, if_neg he, splitAtByte, if_neg hhalf]
      constructor
      · simp only [ByteMetric.split, if_neg he, splitAtByte, if_neg hhalf,
          csSub, chunkSummarize]
        omega
      · simp only [ByteMetric.split, if_neg he, splitAtByte, if_neg hhalf,
          csAdd, csSub, chunkSummarize, ChunkSummary.mk.injEq]
        constructor <;> omega

/-- Witness for C1 at `chunk = "a\nbc"`, `i = 1`. -/
theorem ByteMetric_split_correct_witness :
    (chunkSummarize [97, 10, 98, 99] = chunkSummarize [97, 10, 98, 99] ∧
       isCharBoundary [97, 10, 98, 99] 1 = true ∧
       1 ≤ [97, 10, 98, 99].length) ∧
    ((ByteMetric.split [97, 10, 98, 99] 1
          (chunkSummarize [97, 10, 98, 99])).1 = [97, 10, 98, 99].take 1 ∧
      (ByteMetric.split [97, 10, 98, 99] 1
          (chunkSummarize [97, 10, 98, 99])).2.2.1 = [97, 10, 98, 99].drop 1 ∧
      (ByteMetric.split [97, 10, 98, 99] 1
          (chunkSummarize [97, 10, 98, 99])).2.1.bytes = 1 ∧
      csAdd (ByteMetric.split [97, 10, 98, 99] 1
            (chunkSummarize [97, 10, 98, 99])).2.1
          (ByteMetric.split [97, 10, 98, 99] 1
            (chunkSummarize [97, 10, 98, 99])).2.2.2 =
        chunkSummarize [97, 10, 98, 99]) :=
  ⟨⟨rfl, by decide, by decide⟩,
    ByteMetric_split_correct [97, 10, 98, 99] 1 _ rfl (by decide) (by decide)⟩

/-- **C7.** For every chunk whose summary equals its summarization,
`RawLineMetric::last_unit` returns a last unit that ends at the final line
feed with unit summary `{bytes: last.len(), line_breaks: 1}` when the chunk
has a trailing line feed, and otherwise the unterminated trailing remainder
with `line_breaks = 0`; in both cases the rest summary is the total summary
minus the unit summary (and both returned summaries are accurate). -/
theorem RawLineMetric_last_unit_correct (slice : List Nat)
    (summary : ChunkSummary) (rest last : List Nat)
    (rest_summary last_summary advance : ChunkSummary)
    (hs : summary = chunkSummarize slice)
    (hr : RawLineMetric.last_unit slice summary =
      (rest, rest_summary, last, last_summary, advance)) :
    rest ++ last = slice ∧
    rest_summary = csSub summary last_summary ∧
    last_summary = chunkSummarize last ∧
    rest_summary = chunkSummarize rest ∧
    advance = last_summary ∧
    (if hasTrailingNewline slice then
        last.getLast? = some 10 ∧ nlCount last = 1 ∧
        last_summary = ⟨last.length, 1⟩
      else nlCount last = 0 ∧ last_summary = ⟨last.length, 0⟩) := by
  subst hs
  by_cases hT : hasTrailingNewline slice
  · obtain ⟨htake, hdrop, hlast10⟩ := trailing_drop_facts slice hT
    simp only [RawLineMetric.last_unit, if_pos hT, splitAtLine,
      chunkSummarize, Prod.mk.injEq] at hr
    obtain ⟨h1, h2, h3, h4, h5⟩ := hr
    subst h1 h2 h3 h4 h5
    have hp := posAfterLB_le_length (nlCount slice - 1) slice
    have htl := splitAtLine_take_len (nlCount slice - 1) slice
    have hdlen := List.length_drop (posAfterLB (nlCount slice - 1) slice) slice
    refine ⟨List.take_append_drop _ _, rfl, ?_, ?_, rfl, ?_⟩
    · simp only [chunkSummarize, ChunkSummary.mk.injEq]
      exact ⟨trivial, hdrop.symm⟩
    · simp only [csSub, chunkSummarize, ChunkSummary.mk.injEq]
      constructor
      · omega
      · have h1 := trailing_newline_nlCount_pos hT
        omega
    · rw [if_pos hT]
      exact ⟨hlast10, hdrop, rfl⟩
  · obtain ⟨htake, hdrop⟩ := final_drop_facts slice
    simp only [RawLineMetric.last_unit, if_neg hT, splitAtLine,
      chunkSummarize, Prod.mk.injEq] at hr
    obtain ⟨h1, h2, h3, h4, h5⟩ := hr
    subst h1 h2 h3 h4 h5
    have hp := posAfterLB_le_length (nlCount slice) slice
    have htl := splitAtLine_take_len (nlCount slice) slice
    have hdlen := List.length_drop (posAfterLB (nlCount slice) slice) slice
    refine ⟨List.take_append_drop _ _, rfl, ?_, ?_, rfl, ?_⟩
    · simp only [chunkSummarize, ChunkSummary.mk.injEq]
      exact ⟨trivial, hdrop.symm⟩
    · simp only [csSub, chunkSummarize, ChunkSummary.mk.injEq]
      constructor <;> omega
    · rw [if_neg hT]
      exact ⟨hdrop, rfl⟩

/-- Witness for C7 at `slice = "a\nb\n"` (trailing-newline branch). -/
theorem RawLineMetric_last_unit_correct_witness :
    (chunkSummarize [97, 10, 98, 10] = chunkSummarize [97, 10, 98, 10] ∧
      RawLineMetric.last_unit [97, 10, 98, 10]
          (chunkSummarize [97, 10, 98, 10]) =
        ([97, 10], ⟨2, 1⟩, [98, 10], ⟨2, 1⟩, ⟨2, 1⟩)) ∧
    ([97, 10] ++ [98, 10] = [97, 10, 98, 10] ∧
      (⟨2, 1⟩ : ChunkSummary) =
        csSub (chunkSummarize [97, 10, 98, 10]) ⟨2, 1⟩ ∧
      (⟨2, 1⟩ : ChunkSummary) = chunkSummarize [98, 10] ∧
      (⟨2, 1⟩ : ChunkSummary) = chunkSummarize [97, 10] ∧
      (⟨2, 1⟩ : ChunkSummary) = (⟨2, 1⟩ : ChunkSummary) ∧
      (if hasTrailingNewline [97, 10, 98, 10] then
          ([98, 10] : List Nat).getLast? = some 10 ∧ nlCount [98, 10] = 1 ∧
          (⟨2, 1⟩ : ChunkSummary) = ⟨([98, 10] : List Nat).length, 1⟩
        else nlCount [98, 10] = 0 ∧
          (⟨2, 1⟩ : ChunkSummary) = ⟨([98, 10] : List Nat).length, 0⟩)) :=
  ⟨⟨rfl, by decide⟩,
    RawLineMetric_last_unit_correct [97, 10, 98, 10] _ [97, 10] [98, 10]
      ⟨2, 1⟩ ⟨2, 1⟩ ⟨2, 1⟩ rfl (by decide)⟩

/-- **C6.** For every chunk with at least one line break (and accurate
summary), `LineMetric::first_unit` — and, when the raw last unit is
newline-terminated, `LineMetric::last_unit` — return the raw unit with its
trailing line feed removed (`bytes` decremented by the removed byte,
`line_breaks` zeroed) while the returned advance is the raw summary
including the stripped line feed; when the raw last unit contains no line
break, `last_unit` returns the unterminated fragment unchanged. -/
theorem LineMetric_units_strip (chunk : List Nat) (summary : ChunkSummary)
    (rfirst rrest : List Nat) (rfs radv rrsum : ChunkSummary)
    (lrest llast : List Nat) (lrsum llsum ladv : ChunkSummary)
    (hs : summary = chunkSummarize chunk) (h1 : 1 ≤ nlCount chunk)
    (hfr : RawLineMetric.first_unit chunk summary =
      (rfirst, rfs, radv, rrest, rrsum))
    (hlr : RawLineMetric.last_unit chunk summary =
      (lrest, lrsum, llast, llsum, ladv)) :
    (LineMetric.first_unit chunk summary =
        (rfirst.dropLast, ⟨rfs.bytes - 1, 0⟩, rfs, rrest, rrsum) ∧
      rfirst.dropLast ++ [10] = rfirst ∧ rfs = ⟨rfirst.length, 1⟩) ∧
    (if hasTrailingNewline chunk then
        LineMetric.last_unit chunk summary =
            (lrest, lrsum, llast.dropLast, ⟨llsum.bytes - 1, 0⟩, llsum) ∧
          llast.dropLast ++ [10] = llast
      else
        LineMetric.last_unit chunk summary =
          (lrest, lrsum, llast, llsum, llsum)) := by
  subst hs
  have hf10 : (chunk.take (posAfterLB 1 chunk)).getLast? = some 10 :=
    getLast?_take_posAfterLB 1 chunk le_rfl h1
  have hTf : hasTrailingNewline (chunk.take (posAfterLB 1 chunk)) = true := by
    simp [hasTrailingNewline, hf10]
  constructor
  · simp only [RawLineMetric.first_unit, RawLineMetric.split, splitAtLine,
      chunkSummarize, Prod.mk.injEq] at hfr
    obtain ⟨f1, f2, f3, f4, f5⟩ := hfr
    subst f1 f2 f3 f4 f5
    refine ⟨?_, dropLast_append_of_getLast? hf10, rfl⟩
    simp [LineMetric.first_unit, RawLineMetric.first_unit,
      RawLineMetric.split, splitAtLine, truncateTrailingLB, hTf,
      chunkSummarize]
  · by_cases hT : hasTrailingNewline chunk
    · rw [if_pos hT]
      have hl10 := (trailing_drop_facts chunk hT).2.2
      have hTl : hasTrailingNewline
          (chunk.drop (posAfterLB (nlCount chunk - 1) chunk)) = true := by
        simp [hasTrailingNewline, hl10]
      simp only [RawLineMetric.last_unit, if_pos hT, splitAtLine,
        chunkSummarize, Prod.mk.injEq] at hlr
      obtain ⟨l1, l2, l3, l4, l5⟩ := hlr
      subst l1 l2 l3 l4 l5
      refine ⟨?_, dropLast_append_of_getLast? hl10⟩
      simp [LineMetric.last_unit, RawLineMetric.last_unit, if_pos hT,
        splitAtLine, truncateTrailingLB, hTl, chunkSummarize]
    · rw [if_neg hT]
      simp only [RawLineMetric.last_unit, if_neg hT, splitAtLine,
        chunkSummarize, Prod.mk.injEq] at hlr
      obtain ⟨l1, l2, l3, l4, l5⟩ := hlr
      subst l1 l2 l3 l4 l5
      simp [LineMetric.last_unit, RawLineMetric.last_unit, if_neg hT,
        splitAtLine, chunkSummarize]

/-- Witness for C6 at `chunk = "a\nb\n"`. -/
theorem LineMetric_units_strip_witness :
    (chunkSummarize [97, 10, 98, 10] = chunkSummarize [97, 10, 98, 10] ∧
      1 ≤ nlCount [97, 10, 98, 10] ∧
      RawLineMetric.first_unit [97, 10, 98, 10]
          (chunkSummarize [97, 10, 98, 10]) =
        ([97, 10], ⟨2, 1⟩, ⟨2, 1⟩, [98, 10], ⟨2, 1⟩) ∧
      RawLineMetric.last_unit [97, 10, 98, 10]
          (chunkSummarize [97, 10, 98, 10]) =
        ([97, 10], ⟨2, 1⟩, [98, 10], ⟨2, 1⟩, ⟨2, 1⟩)) ∧
    ((LineMetric.first_unit [97, 10, 98, 10]
          (chunkSummarize [97, 10, 98, 10]) =
        (([97, 10] : List Nat).dropLast,
          ⟨(⟨2, 1⟩ : ChunkSummary).bytes - 1, 0⟩, ⟨2, 1⟩, [98, 10], ⟨2, 1⟩) ∧
        ([97, 10] : List Nat).dropLast ++ [10] = [97, 10] ∧
        (⟨2, 1⟩ : ChunkSummary) = ⟨([97, 10] : List Nat).length, 1⟩) ∧
      (if hasTrailingNewline [97, 10, 98, 10] then
          LineMetric.last_unit [97, 10, 98, 10]
              (chunkSummarize [97, 10, 98, 10]) =
            ([97, 10], ⟨2, 1⟩, ([98, 10] : List Nat).dropLast,
              ⟨(⟨2, 1⟩ : ChunkSummary).bytes - 1, 0⟩, ⟨2, 1⟩) ∧
            ([98, 10] : List Nat).dropLast ++ [10] = [98, 10]
        else
          LineMetric.last_unit [97, 10, 98, 10]
              (chunkSummarize [97, 10, 98, 10]) =
            ([97, 10], ⟨2, 1⟩, [98, 10], ⟨2, 1⟩, ⟨2, 1⟩))) :=
  ⟨⟨rfl, by decide, by decide, by decide⟩,
    LineMetric_units_strip [97, 10, 98, 10] _ [97, 10] [98, 10] ⟨2, 1⟩ ⟨2, 1⟩
      ⟨2, 1⟩ [97, 10] [98, 10] ⟨2, 1⟩ ⟨2, 1⟩ ⟨2, 1⟩ rfl (by decide) (by decide)
      (by decide)⟩

/-! ## Lemmas about grouping runs -/

theorem chunksOfAux_flatten {α : Type} (n : Nat) (fuel : Nat) (l : List α)
    (hn : 1 ≤ n) (hf : l.length ≤ fuel) :
    (chunksOfAux n fuel l).flatten = l := by
  induction fuel generalizing l with
  | zero =>
    have : l = [] := by
      cases l with
      | nil => rfl
      | cons a as => simp at hf
    subst this
    rfl
  | succ fuel ih =>
    cases l with
    | nil => rfl
    | cons a as =>
      rw [chunksOfAux, List.flatten_cons, ih _ ?_, List.take_append_drop]
      simp only [List.length_drop, List.length_cons] at *
      omega

theorem chunksOfAux_run_length {α : Type} (n : Nat) (fuel : Nat)
    (l : List α) (hn : 1 ≤ n) (hf : l.length ≤ fuel) :
    ∀ r ∈ chunksOfAux n fuel l, 1 ≤ r.length ∧ r.length ≤ n := by
  induction fuel generalizing l with
  | zero =>
    intro r hr
    cases l with
    | nil => simp [chunksOfAux] at hr
    | cons a as => simp at hf
  | succ fuel ih =>
    intro r hr
    cases l with
    | nil => simp [chunksOfAux] at hr
    | cons a as =>
      rw [chunksOfAux, List.mem_cons] at hr
      rcases hr with hr | hr
      · subst hr
        simp only [List.length_take, List.length_cons]
        omega
      · refine ih _ ?_ r hr
        simp only [List.length_drop, List.length_cons] at *
        omega

theorem chunksOfAux_dropLast_length {α : Type} (n : Nat) (fuel : Nat)
    (l : List α) (hn : 1 ≤ n) (hf : l.length ≤ fuel) :
    ∀ r ∈ (chunksOfAux n fuel l).dropLast, r.length = n := by
  induction fuel generalizing l with
  | zero =>
    intro r hr
    cases l with
    | nil => simp [chunksOfAux] at hr
    | cons a as => simp at hf
  | succ fuel ih =>
    intro r hr
    cases l with
    | nil => simp [chunksOfAux] at hr
    | cons a as =>
      rw [chunksOfAux] at hr
      cases hrest : chunksOfAux n fuel ((a :: as).drop n) with
      | nil => rw [hrest] at hr; simp at hr
      | cons q qs =>
        rw [hrest, List.dropLast_cons₂, List.mem_cons] at hr
        have hd : (a :: as).drop n ≠ [] := by
          intro he
          rw [he] at hrest
          simp [chunksOfAux] at hrest
        have hlen : n < (a :: as).length := by
          by_contra hc
          exact hd (List.drop_eq_nil_iff.mpr (by omega))
        rcases hr with hr | hr
        · subst hr
          simp only [List.length_take, List.length_cons] at *
          omega
        · have := ih ((a :: as).drop n) ?_
          · rw [hrest] at this
            exact this r hr
          · simp only [List.length_drop, List.length_cons] at *
            omega

theorem chunksOf_flatten {α : Type} (n : Nat) (l : List α) (hn : 1 ≤ n) :
    (chunksOf n l).flatten = l :=
  chunksOfAux_flatten n l.length l hn le_rfl

theorem chunksOf_run_length {α : Type} (n : Nat) (l : List α) (hn : 1 ≤ n) :
    ∀ r ∈ chunksOf n l, 1 ≤ r.length ∧ r.length ≤ n :=
  chunksOfAux_run_length n l.length l hn le_rfl

theorem chunksOf_dropLast_length {α : Type} (n : Nat) (l : List α)
    (hn : 1 ≤ n) : ∀ r ∈ (chunksOf n l).dropLast, r.length = n :=
  chunksOfAux_dropLast_length n l.length l hn le_rfl

/-! ## Claim theorems for the tree layer -/

/-- **C9.** `Tree::from_leaves` applied to an empty iterator returns the
default tree: a tree with leaf count 1 whose single leaf holds
`L::default()`, without error. -/
theorem fromLeaves_nil (ops : LeafOps L S) (fan : Nat) :
    fromLeaves ops fan ([] : List L) = defaultTree ops ∧
    (fromLeaves ops fan ([] : List L)).leafCount = 1 ∧
    (fromLeaves ops fan ([] : List L)).leavesList = [ops.defaultLeaf] := by
  refine ⟨rfl, ?_, ?_⟩ <;>
    simp [fromLeaves, defaultTree, leafNode, Node.leafCount, Node.leavesList]

/-- **C5 (counterexample).** With `FANOUT = 2`, the grouping pass of
`Tree::from_leaves` over a level of three nodes builds runs of sizes
`[2, 1]`: the inode built from the last run has a single child, so no
donation from the preceding run takes place and the claim's "every inode
built by the pass has at least 2 children" fails. -/
theorem groupingPass_single_child_counterexample :
    ¬ (∀ nd ∈ groupingPass (chunkOps 4) 2
        [leafNode (chunkOps 4) [97, 98], leafNode (chunkOps 4) [99, 100],
          leafNode (chunkOps 4) [101, 102]], 2 ≤ nd.childCount) := by
  decide

/-- **C5 (amended).** Every grouping pass of `Tree::from_leaves` splits
the current level into consecutive runs of size `FANOUT` whose
concatenation is the level; every run, and hence every inode built by the
pass, has between 1 and `FANOUT` children, and all runs except possibly
the last have exactly `FANOUT` — the last run may be a single node (the
resulting under-filled trailing inode is repaired later by
`balance_right_side`, not by donation during the pass). -/
theorem groupingPass_runs (ops : LeafOps L S) (fan : Nat)
    (nodes : List (Node L S)) (hfan : 1 ≤ fan) :
    (chunksOf fan nodes).flatten = nodes ∧
    (∀ nd ∈ groupingPass ops fan nodes,
        1 ≤ nd.childCount ∧ nd.childCount ≤ fan) ∧
    (∀ r ∈ (chunksOf fan nodes).dropLast, r.length = fan) := by
  refine ⟨chunksOf_flatten fan nodes hfan, ?_,
    chunksOf_dropLast_length fan nodes hfan⟩
  intro nd hnd
  simp only [groupingPass, List.mem_map] at hnd
  obtain ⟨r, hr, hrefl⟩ := hnd
  subst hrefl
  simpa [mkInternal, Node.childCount] using chunksOf_run_length fan nodes hfan r hr

/-- Witness for the amended C5 at `FANOUT = 2` over three leaf nodes. -/
theorem groupingPass_runs_witness :
    (1 ≤ 2) ∧
    ((chunksOf 2 [leafNode (chunkOps 4) [97, 98],
        leafNode (chunkOps 4) [99, 100],
        leafNode (chunkOps 4) [101, 102]]).flatten =
      [leafNode (chunkOps 4) [97, 98], leafNode (chunkOps 4) [99, 100],
        leafNode (chunkOps 4) [101, 102]] ∧
    (∀ nd ∈ groupingPass (chunkOps 4) 2
        [leafNode (chunkOps 4) [97, 98], leafNode (chunkOps 4) [99, 100],
          leafNode (chunkOps 4) [101, 102]],
        1 ≤ nd.childCount ∧ nd.childCount ≤ 2) ∧
    (∀ r ∈ (chunksOf 2 [leafNode (chunkOps 4) [97, 98],
        leafNode (chunkOps 4) [99, 100],
        leafNode (chunkOps 4) [101, 102]]).dropLast, r.length = 2)) :=
  ⟨by decide, groupingPass_runs (chunkOps 4) 2 _ (by decide)⟩

/-! ## `pull_up_root` (C8) -/

/-- **C8.** For every well-formed tree (no empty inodes, accurate cached
summaries, with the summary identity law), `pull_up_root` replaces the
root by its only child exactly while the root is an internal node with one
child, terminating with a root that is either a leaf or an internal node
with at least 2 children, and leaving the tree's leaf sequence and summary
unchanged. -/
theorem pullUpRoot_correct (ops : LeafOps L S) (n : Node L S)
    (hz : ∀ x, ops.sadd ops.szero x = x)
    (hne : NoEmptyInodes n) (hwf : WfSummary ops n) :
    (pullUpRoot n).leavesList = n.leavesList ∧
    (pullUpRoot n).summary = n.summary ∧
    ((pullUpRoot n).isLeaf = true ∨ 2 ≤ (pullUpRoot n).childCount) := by
  induction n using pullUpRoot.induct with
  | case1 s c ih =>
    have hnec : NoEmptyInodes c := by
      cases hne with
      | internal _ _ hnil hall => exact hall c (by simp)
    have hwfc : WfSummary ops c := by
      cases hwf with
      | internal _ hall => exact hall c (by simp)
    have hs : s = ops.sadd ops.szero c.summary := by
      cases hwf with
      | internal _ hall => simp [Node.summary]
    obtain ⟨ihl, ihs, ihshape⟩ := ih hnec hwfc
    refine ⟨?_, ?_, ?_⟩
    · rw [show pullUpRoot (Node.internal s [c]) = pullUpRoot c from rfl, ihl]
      simp [Node.leavesList, leavesListOf]
    · rw [show pullUpRoot (Node.internal s [c]) = pullUpRoot c from rfl, ihs,
        show (Node.internal s [c]).summary = s from rfl, hs, hz]
    · rwa [show pullUpRoot (Node.internal s [c]) = pullUpRoot c from rfl]
  | case2 n hno =>
    have hself : pullUpRoot n = n := by
      cases n with
      | leaf v s => rfl
      | internal s cs =>
        cases cs with
        | nil => rfl
        | cons c rest =>
          cases rest with
          | nil => exact absurd rfl (hno s c)
          | cons c2 rest2 => rfl
    refine ⟨by rw [hself], by rw [hself], ?_⟩
    rw [hself]
    cases n with
    | leaf v s => exact Or.inl rfl
    | internal s cs =>
      refine Or.inr ?_
      cases hne with
      | internal _ _ hnil hall =>
        cases cs with
        | nil => exact absurd rfl hnil
        | cons c rest =>
          cases rest with
          | nil => exact absurd rfl (hno s c)
          | cons c2 rest2 => simp [Node.childCount]

/-- Witness for C8 on a chain of two single-child inodes over `"ab"`. -/
theorem pullUpRoot_correct_witness :
    ((∀ x, (chunkOps 4).sadd (chunkOps 4).szero x = x) ∧
      NoEmptyInodes c8tree ∧ WfSummary (chunkOps 4) c8tree) ∧
    ((pullUpRoot c8tree).leavesList = c8tree.leavesList ∧
      (pullUpRoot c8tree).summary = c8tree.summary ∧
      ((pullUpRoot c8tree).isLeaf = true ∨
        2 ≤ (pullUpRoot c8tree).childCount)) := by
  have hz : ∀ x, (chunkOps 4).sadd (chunkOps 4).szero x = x := by
    intro x
    cases x
    simp [chunkOps, csAdd, ChunkSummary.empty]
  have hne : NoEmptyInodes c8tree := by
    refine NoEmptyInodes.internal _ _ (by simp) ?_
    intro c hc
    simp only [List.mem_singleton] at hc
    subst hc
    refine NoEmptyInodes.internal _ _ (by simp) ?_
    intro c hc
    simp only [List.mem_singleton] at hc
    subst hc
    exact NoEmptyInodes.leaf _ _
  have hwf : WfSummary (chunkOps 4) c8tree := by
    refine WfSummary.internal
      [Node.internal (⟨2, 0⟩ : ChunkSummary) [Node.leaf [97, 98] ⟨2, 0⟩]] ?_
    intro c hc
    simp only [List.mem_singleton] at hc
    subst hc
    refine WfSummary.internal [Node.leaf [97, 98] (⟨2, 0⟩ : ChunkSummary)] ?_
    intro c hc
    simp only [List.mem_singleton] at hc
    subst hc
    exact WfSummary.leaf [97, 98]
  exact ⟨⟨hz, hne, hwf⟩, pullUpRoot_correct (chunkOps 4) c8tree hz hne hwf⟩

/-! ## Whole-tree slice sharing (C4) -/

/-- **C4.** For every `TreeSlice` whose base measure equals the base
measure of its root subtree, `Tree::from(slice)` returns the slice's root
node itself (the source path is `Arc::clone(slice.root())`, sharing the
handle with no new node allocated). -/
theorem treeFromSlice_whole (ops : LeafOps L S) (fan : Nat)
    (slice : TreeSlice L S)
    (h : slice.base_measure = baseMeasure ops slice.root) :
    treeFromSlice ops fan slice = some slice.root := by
  unfold treeFromSlice
  rw [if_pos h]

/-- Witness for C4 on a whole-tree slice of a two-leaf tree. -/
theorem treeFromSlice_whole_witness :
    (c4slice.base_measure = baseMeasure (chunkOps 4) c4slice.root) ∧
    treeFromSlice (chunkOps 4) 8 c4slice = some c4slice.root :=
  ⟨by decide, treeFromSlice_whole (chunkOps 4) 8 c4slice (by decide)⟩

/-! ## The `cut_last_rec` counter claim (C3) -/

theorem cutLastLoop_congr (ops : LeafOps L S) (fan : Nat)
    (rec1 rec2 : Node L S → Nat → Nat → Option (Node L S × Nat))
    (h : ∀ c t, rec1 c t 0 = rec2 c t 0) :
    ∀ (children : List (Node L S)) (offset : Nat) (acc : List (Node L S))
      (take_up_to : Nat),
      cutLastLoop ops fan rec1 children offset acc take_up_to 0 =
        cutLastLoop ops fan rec2 children offset acc take_up_to 0 := by
  intro children
  induction children with
  | nil => intro offset acc t; rfl
  | cons c rest ih =>
    intro offset acc t
    simp only [cutLastLoop]
    split
    · rw [h c (t - offset)]
    · exact ih _ _ _

theorem cutLastRec_inc_agree (ops : LeafOps L S) (fan : Nat) :
    ∀ (fuel : Nat) (node : Node L S) (t : Nat) (es : L) (esum : S),
      cutLastRec ops fan fuel node t es esum 0 =
        cutLastRecInc ops fan fuel node t es esum 0 := by
  intro fuel
  induction fuel with
  | zero => intro node t es esum; rfl
  | succ fuel ih =>
    intro node t es esum
    cases node with
    | leaf v s => rfl
    | internal s cs =>
      exact cutLastLoop_congr ops fan _ _ (fun c t => ih c t es esum)
        cs 0 [] t

theorem cutPhase2_inc_agree (ops : LeafOps L S) (fan : Nat)
    (endPos rootBase : Nat) (ls : L) (lsum : S) :
    ∀ (children : List (Node L S)) (offset : Nat) (acc : List (Node L S)),
      cutPhase2 ops fan endPos rootBase ls lsum children offset acc =
        cutPhase2Inc ops fan endPos rootBase ls lsum children offset acc := by
  intro children
  induction children with
  | nil => intro offset acc; rfl
  | cons c rest ih =>
    intro offset acc
    simp only [cutPhase2, cutPhase2Inc]
    split
    · split
      · rfl
      · rw [cutLastRec_inc_agree]
    · exact ih _ _

theorem cutTreeSlice_inc_agree (ops : LeafOps L S) (fan : Nat)
    (slice : TreeSlice L S) :
    cutTreeSlice ops fan slice = cutTreeSliceInc ops fan slice := by
  unfold cutTreeSlice cutTreeSliceInc
  cases hroot : slice.root with
  | leaf v s => rfl
  | internal s cs => simp only [cutPhase2_inc_agree]

theorem intoTreeRoot_inc_agree (ops : LeafOps L S) (fan : Nat)
    (slice : TreeSlice L S) :
    intoTreeRoot ops fan slice = intoTreeRootInc ops fan slice := by
  unfold intoTreeRoot intoTreeRootInc
  rw [cutTreeSlice_inc_agree]

/-- **C3.** Replacing the assignment `*invalid_nodes = 1` in the leaf case
of `cut_last_rec` with the increment `*invalid_nodes += 1` (as in
`cut_first_rec`) never changes the result of converting a `TreeSlice`
into a `Tree`: the counter passed down from `cut_tree_slice` is still
zero when `cut_last_rec` reaches its leaf case, so both forms agree. -/
theorem treeFromSlice_inc_equiv (ops : LeafOps L S) (fan : Nat)
    (slice : TreeSlice L S) :
    treeFromSlice ops fan slice = treeFromSliceInc ops fan slice := by
  unfold treeFromSlice treeFromSliceInc
  rw [intoTreeRoot_inc_agree]

/-! ## `From<String>` vs `From<&str>` (C10) -/

theorem chunksOfAux_nil {α : Type} (n fuel : Nat) :
    chunksOfAux (α := α) n fuel [] = [] := by
  cases fuel <;> rfl

/-- **C10.** For every string `s`, `Rope::from(s: String)` — which takes
the no-allocation single-chunk shortcut when `s.len() <= max_bytes` —
produces a rope agreeing with `Rope::from(&*s)` on the byte sequence,
`byte_len`, `line_len` and the `last_byte_is_newline` flag. -/
theorem ropeFromString_equiv (max : Nat) (s : List Nat) :
    ropeBytes (ropeFromString max s) = ropeBytes (ropeFromStr max s) ∧
    Rope.byte_len (ropeFromString max s) = Rope.byte_len (ropeFromStr max s) ∧
    Rope.line_len (ropeFromString max s) = Rope.line_len (ropeFromStr max s) ∧
    (ropeFromString max s).last_byte_is_newline =
      (ropeFromStr max s).last_byte_is_newline := by
  by_cases hle : s.length ≤ max
  · by_cases hnil : s = []
    · subst hnil
      have heq : ropeFromString max [] = ropeFromStr max [] := by
        unfold ropeFromString ropeFromStr
        rw [if_pos hle]
        rfl
      rw [heq]
      exact ⟨rfl, rfl, rfl, rfl⟩
    · obtain ⟨a, as, hs⟩ : ∃ a as, s = a :: as := by
        cases s with
        | nil => exact absurd rfl hnil
        | cons a as => exact ⟨a, as, rfl⟩
      subst hs
      have hchunks : textChunks max (a :: as) = [a :: as] := by
        unfold textChunks chunksOf
        have hdrop : (a :: as).drop max = [] :=
          List.drop_eq_nil_iff.mpr hle
        rw [show (a :: as).length = as.length + 1 from rfl, chunksOfAux,
          List.take_of_length_le hle, hdrop, chunksOfAux_nil]
      have heq : ropeFromString max (a :: as) = ropeFromStr max (a :: as) := by
        unfold ropeFromString ropeFromStr
        rw [if_pos hle, hchunks]
        have hempty : (a :: as).isEmpty = false := rfl
        rw [hempty]
        simp only [Bool.false_eq_true, if_false]
        have hflag : ((a :: as).getLast?.map (fun b => b == 10)).getD false =
            ((a :: as).getLast? == some 10) := by
          cases hgl : (a :: as).getLast? with
          | none => exact absurd (List.getLast?_eq_none_iff.mp hgl) (by simp)
          | some b => rfl
        rw [hflag]
      rw [heq]
      exact ⟨rfl, rfl, rfl, rfl⟩
  · have heq : ropeFromString max s = ropeFromStr max s := by
      unfold ropeFromString
      rw [if_neg hle]
    rw [heq]
    exact ⟨rfl, rfl, rfl, rfl⟩

/-! ## The `last_byte_is_newline` bug of `From<RopeSlice>` (C2) -/

/-- **C2 (code-bug evaluation).** Materializing the whole-tree slice of
the rope `"a\n"` through `From<RopeSlice>` yields a rope whose final byte
is a line feed, yet whose `last_byte_is_newline` field is `false`
(`rope.rs` 305 leaves it `false` with a `// TODO`), so `line_len` returns
`2` where the claimed identity `line_breaks + 0` requires `1`. -/
theorem ropeFromSlice_newline_bug :
    (ropeFromSlice 4 c2slice).map Rope.last_byte_is_newline = some false ∧
    (ropeFromSlice 4 c2slice).map ropeLastByte = some (some 10) ∧
    (ropeFromSlice 4 c2slice).map Rope.line_len = some 2 ∧
    ¬ (ropeFromSlice 4 c2slice).map Rope.line_len = some 1 := by
  decide
